import Mathlib

/-!
Verification of the data-normalization and aggregation layer of the
outlier-dashboard repository.

The Python source is shallowly embedded: strings are `List Char`, pandas
timestamps are epoch-day integers (`ℤ`), pandas floats are `ℚ` (every claim
only involves exactly representable decimal values), and the handful of
pandas library calls whose internals live outside the repository
(`pd.to_datetime` parsing, `isocalendar().week`, `month_name()`,
`day_name()`) are taken as parameters of the embedding (`CalendarOps`).
Everything else is translated directly from the source files under `src/`.
-/

/-- A decimal digit character, as produced by Python string formatting. -/
def digitChar (d : Nat) : Char := Char.ofNat (48 + d)

/-- Decimal representation of a natural number (Python `f"{n}"`). -/
def natDigits (n : Nat) : List Char :=
  if n < 10 then [digitChar n]
  else natDigits (n / 10) ++ [digitChar (n % 10)]
decreasing_by exact Nat.div_lt_self (by omega) (by omega)

/-- Numeric value of a digit string (Python `int(...)` on a regex group). -/
def natOfDigits (ds : List Char) : Nat :=
  ds.foldl (fun a c => a * 10 + (c.toNat - 48)) 0

/--
`re.search r"(\d+)u"`: scan left to right; at the first position where a
maximal nonempty digit run is immediately followed by the character `u`,
return the numeric value of that run.  (Within a digit run only the full
run can be followed by a non-digit, so backtracking inside `\d+` never
produces a different match.)
-/
def searchUnit (u : Char) : List Char → Option Nat
  | [] => none
  | x :: xs =>
    if x.isDigit then
      if ((x :: xs).dropWhile Char.isDigit).head? = some u then
        some (natOfDigits ((x :: xs).takeWhile Char.isDigit))
      else searchUnit u xs
    else searchUnit u xs

/-- `parse_duration` from `src/src/data/parse.py` lines 7-29. -/
def parse_duration (s : List Char) : Nat :=
  if s = ['-'] then 0
  else
    ((searchUnit 'h' s).getD 0) * 3600 + ((searchUnit 'm' s).getD 0) * 60
      + (searchUnit 's' s).getD 0

/--
`format_duration` from `src/src/data/parse.py` lines 54-68, with
`hours = seconds // 3600`, `minutes = seconds % 3600 // 60` and
`secs = seconds % 60` inlined into the three `hours > 0` / `minutes > 0` /
seconds-only branches.
-/
def format_duration (seconds : Nat) : List Char :=
  if seconds = 0 then ['-']
  else if 0 < seconds / 3600 then
    natDigits (seconds / 3600) ++ 'h' :: ' '
      :: (natDigits (seconds % 3600 / 60) ++ 'm' :: ' ' :: (natDigits (seconds % 60) ++ ['s']))
  else if 0 < seconds % 3600 / 60 then
    natDigits (seconds % 3600 / 60) ++ 'm' :: ' ' :: (natDigits (seconds % 60) ++ ['s'])
  else natDigits (seconds % 60) ++ ['s']

/--
`re.search r"\$(\d+\.\d+)"`: scan for a `$` followed by a nonempty digit
run, a literal dot, and another nonempty digit run; return the two digit
runs of the leftmost such match.
-/
def findMoney : List Char → Option (List Char × List Char)
  | [] => none
  | x :: xs =>
    if x = '$' then
      if xs.takeWhile Char.isDigit ≠ [] ∧
          (xs.dropWhile Char.isDigit).head? = some '.' ∧
          ((xs.dropWhile Char.isDigit).tail.takeWhile Char.isDigit) ≠ [] then
        some (xs.takeWhile Char.isDigit, (xs.dropWhile Char.isDigit).tail.takeWhile Char.isDigit)
      else findMoney xs
    else findMoney xs

/-- Value of a matched money string `intpart.fracpart` as a rational. -/
def moneyVal (m : List Char × List Char) : ℚ :=
  (natOfDigits m.1 : ℚ) + (natOfDigits m.2 : ℚ) / (10 : ℚ) ^ m.2.length

/-- `extract_rate` from `src/src/data/parse.py` lines 32-40. -/
def extract_rate (s : List Char) : ℚ :=
  if s = ['-'] then 0
  else match findMoney s with
    | some m => moneyVal m
    | none => 0

/-- `extract_payout` from `src/src/data/parse.py` lines 43-51. -/
def extract_payout (s : List Char) : ℚ :=
  if s = ['-'] then 0
  else match findMoney s with
    | some m => moneyVal m
    | none => 0

/-- `calculate_trend` from `src/src/tabs/overview.py` lines 172-181. -/
def calculate_trend (current_value previous_value : ℚ) : ℚ :=
  if previous_value = 0 then
    if 0 < current_value then 100 else 0
  else (current_value - previous_value) / previous_value * 100

/--
Result of a pandas float division: a finite rational, or the IEEE
special values that numpy produces when the divisor is zero.
-/
inductive PFloat where
  | finite (q : ℚ)
  | inf
  | ninf
  | nan
deriving DecidableEq

/-- Pandas/numpy float division `a / b` (no exception on `b = 0`). -/
def floatDiv (a b : ℚ) : PFloat :=
  if b = 0 then
    if 0 < a then PFloat.inf else if a < 0 then PFloat.ninf else PFloat.nan
  else PFloat.finite (a / b)

/--
Effective-rate computation for one aggregation group, from
`src/src/tabs/earnings_analysis.py` lines 118-128 (and the same formula in
`src/src/tabs/projects_details.py` lines 23-26): each row of the group is a
`(duration_seconds, payout_amount)` pair; the group's sums are taken and
`sum(payout) / (sum(duration)/3600)` is computed by plain float division.
-/
def effective_rate (rows : List (Nat × ℚ)) : PFloat :=
  let dur : ℚ := ((rows.map Prod.fst).sum : Nat)
  let payout : ℚ := (rows.map Prod.snd).sum
  floatDiv payout (dur / 3600)

/-- Pandas `Series.min()` with `skipna`: `none` entries are `NaT`. -/
def seriesMin (col : List (Option ℤ)) : Option ℤ :=
  match col.filterMap id with
  | [] => none
  | v :: t => some (t.foldl min v)

/-- Pandas `Series.max()` with `skipna`: `none` entries are `NaT`. -/
def seriesMax (col : List (Option ℤ)) : Option ℤ :=
  match col.filterMap id with
  | [] => none
  | v :: t => some (t.foldl max v)

/--
`get_date_range` from `src/src/data/parse.py` lines 76-80, over the
`workDate` column viewed as already-parsed optional dates (epoch days);
`pd.to_datetime` of a null entry is `NaT`, and `.min()`/`.max()` of an
empty or all-`NaT` series is `NaT`, modelled as `none`.
-/
def get_date_range (col : List (Option ℤ)) : Option ℤ × Option ℤ :=
  (seriesMin col, seriesMax col)

/-- `pd.date_range(start, end, freq="D")`: inclusive daily sequence. -/
def dateRange (s e : ℤ) : List ℤ :=
  (List.range (e + 1 - s).toNat).map (fun i : ℕ => s + (i : ℤ))

/--
Pandas `groupby("date").agg(sum)` over `(date, duration_seconds,
payout_amount)` rows: one output row per distinct date (keys sorted
ascending, pandas' default), with the two columns summed.
-/
def daily_agg (rows : List (ℤ × ℚ × ℚ)) : List (ℤ × ℚ × ℚ) :=
  let keys := ((rows.map Prod.fst).dedup).insertionSort (· ≤ ·)
  keys.map (fun d =>
    (d, ((rows.filter (fun r => decide (r.1 = d))).map (fun r => r.2.1)).sum,
        ((rows.filter (fun r => decide (r.1 = d))).map (fun r => r.2.2)).sum))

/--
The date-gap-filled daily aggregation of `src/main.py` lines 128-131 and
189-202: filter the normalized rows (optional date, duration, payout) to
the inclusive window `[s, e]` (null dates match no comparison), group by
date with summed columns, then left-merge onto the full inclusive date
range and fill the missing sums with 0.
-/
def fill_daily (rows : List (Option ℤ × ℚ × ℚ)) (s e : ℤ) : List (ℤ × ℚ × ℚ) :=
  let filtered := rows.filterMap (fun r =>
    match r.1 with
    | some d => if s ≤ d ∧ d ≤ e then some (d, r.2) else none
    | none => none)
  let daily := daily_agg filtered
  (dateRange s e).map (fun d =>
    match daily.find? (fun g => decide (g.1 = d)) with
    | some g => (d, g.2)
    | none => (d, 0, 0))

/-- Day-of-week names produced by pandas `dt.day_name()`. -/
inductive Weekday where
  | monday | tuesday | wednesday | thursday | friday | saturday | sunday
deriving DecidableEq

/-- Position of a day in the fixed `days_order` list (Monday first). -/
def weekIndex : Weekday → Nat
  | .monday => 0
  | .tuesday => 1
  | .wednesday => 2
  | .thursday => 3
  | .friday => 4
  | .saturday => 5
  | .sunday => 6

/-- Alphabetical position of the English day name (pandas groupby order). -/
def alphaIndex : Weekday → Nat
  | .friday => 0
  | .monday => 1
  | .saturday => 2
  | .sunday => 3
  | .thursday => 4
  | .tuesday => 5
  | .wednesday => 6

/-- `dt.day_name()` of an epoch-day date (day 0, 1970-01-01, is Thursday). -/
def dayName (d : ℤ) : Weekday :=
  match (d % 7).toNat with
  | 0 => .thursday
  | 1 => .friday
  | 2 => .saturday
  | 3 => .sunday
  | 4 => .monday
  | 5 => .tuesday
  | _ => .wednesday

/-- Alphabetical order on day names, used by pandas when sorting group keys. -/
def alphaLE (a b : Weekday) : Prop := alphaIndex a ≤ alphaIndex b

instance : DecidableRel alphaLE := fun a b => Nat.decLe (alphaIndex a) (alphaIndex b)

/-- The fixed-week-order comparison induced by the `days_order` categorical. -/
def weekLE (a b : Weekday × ℚ) : Prop := weekIndex a.1 ≤ weekIndex b.1

instance : DecidableRel weekLE := fun a b => Nat.decLe (weekIndex a.1) (weekIndex b.1)

instance : IsTotal (Weekday × ℚ) weekLE := ⟨fun x y => Nat.le_total (weekIndex x.1) (weekIndex y.1)⟩

instance : IsTrans (Weekday × ℚ) weekLE := ⟨fun _ _ _ hab hbc => Nat.le_trans hab hbc⟩

/-- The `daily_hours` rows with their `dt.day_name()` column attached
(`src/src/tabs/hours_analysis.py` lines 115-116). -/
def day_named (rows : List (ℤ × ℚ)) : List (Weekday × ℚ) :=
  rows.map (fun r => (dayName r.1, r.2))

/-- The distinct day-name group keys, in pandas' default groupby order
(alphabetical). -/
def day_keys (rows : List (ℤ × ℚ)) : List Weekday :=
  (((day_named rows).map Prod.fst).dedup).insertionSort alphaLE

/--
`day_of_week_hours` from `src/src/tabs/hours_analysis.py` lines 113-140:
attach `dt.day_name()` to each `(date, hours)` row, group by day name with
summed hours (pandas emits one row per distinct key, keys sorted
alphabetically), then re-sort by the `days_order` categorical
(Monday → Sunday) via `sort_values`.
-/
def day_of_week_hours (rows : List (ℤ × ℚ)) : List (Weekday × ℚ) :=
  ((day_keys rows).map (fun k =>
    (k, (((day_named rows).filter (fun r => decide (r.1 = k))).map Prod.snd).sum))).insertionSort
    weekLE

/-- One uploaded CSV row (`Raw Record`), with the binding column names. -/
structure RawRow where
  itemID : List Char
  projectName : List Char
  workDate : List Char
  duration : List Char
  rateApplied : List Char
  payout : List Char
  payType : List Char
  status : List Char
deriving DecidableEq

/-- One normalized row: the raw columns plus the derived columns that
`process_data` adds. -/
structure NormRow where
  itemID : List Char
  projectName : List Char
  workDate : List Char
  duration : List Char
  rateApplied : List Char
  payout : List Char
  payType : List Char
  status : List Char
  workDate_dt : Option ℤ
  duration_seconds : Nat
  hourly_rate : ℚ
  payout_amount : ℚ
  week : Option Nat
  month : Option (List Char)
  day_of_week : Option Weekday
  date : Option ℤ
  is_overtime : Bool
deriving DecidableEq

/--
The pandas calendar primitives used by `process_data`, whose
implementations live in the pandas library rather than in this repository:
the strict-format date parser (`pd.to_datetime(.., format="%b %d, %Y",
errors="coerce")`), the generic fallback parser (`pd.to_datetime(..,
errors="coerce")`), and the `isocalendar().week` / `month_name()` /
`day_name()` accessors.  All return `none`/propagate `NaT` on null input,
which `Option.map` models.
-/
structure CalendarOps where
  primaryParse : List Char → Option ℤ
  genericParse : List Char → Option ℤ
  isoWeek : ℤ → Nat
  monthName : ℤ → List Char
  dayNameOf : ℤ → Weekday

/-- The single-row normalization step of `process_data`. -/
def mkNormRow (ops : CalendarOps) (d : Option ℤ) (r : RawRow) : NormRow :=
  { itemID := r.itemID
    projectName := r.projectName
    workDate := r.workDate
    duration := r.duration
    rateApplied := r.rateApplied
    payout := r.payout
    payType := r.payType
    status := r.status
    workDate_dt := d
    duration_seconds := parse_duration r.duration
    hourly_rate := extract_rate r.rateApplied
    payout_amount := extract_payout r.payout
    week := d.map ops.isoWeek
    month := d.map ops.monthName
    day_of_week := d.map ops.dayNameOf
    date := d
    is_overtime := decide (r.payType = ("overtimePay").toList) }

/--
The date parse that `process_data` effectively applies to a row's
`workDate`: the primary `"%b %d, %Y"` parser, unless every row of the
column failed it, in which case the whole column is re-parsed with the
generic parser.
-/
def effectiveParse (ops : CalendarOps) (rows : List RawRow) (w : List Char) : Option ℤ :=
  if rows.all (fun r => (ops.primaryParse r.workDate).isNone) then ops.genericParse w
  else ops.primaryParse w

/--
`process_data` from `src/src/data/parse.py` lines 110-140 (the pure table
transformation; the `df.copy()` aliasing behaviour is modelled separately
by `process_data_prog`): parse the `workDate` column with the primary
format; if every row fails, re-parse the whole column with the generic
parser; then add the parsed-field and calendar-derived columns row-wise.
-/
def process_data (ops : CalendarOps) (rows : List RawRow) : List NormRow :=
  rows.map (fun r => mkNormRow ops (effectiveParse ops rows r.workDate) r)

/-- Sample calendar primitives where both date parsers fail on every
input (used to exercise the null-propagation contract). -/
def sampleOps : CalendarOps :=
  { primaryParse := fun _ => none
    genericParse := fun _ => none
    isoWeek := fun _ => 0
    monthName := fun _ => []
    dayNameOf := fun _ => Weekday.monday }

/-- A sample raw row with an unparseable date. -/
def sampleRaw : RawRow :=
  { itemID := ['a']
    projectName := ['p']
    workDate := ['x']
    duration := ['-']
    rateApplied := ['-']
    payout := ['-']
    payType := ['q']
    status := ['r'] }

/-- A pandas DataFrame object: either a raw upload or a normalized table. -/
inductive DF where
  | raw (rows : List RawRow)
  | norm (rows : List NormRow)
deriving DecidableEq

/-- The table held by the DataFrame that `process_data` builds in place on
its local copy. -/
def runProcess (ops : CalendarOps) : DF → DF
  | .raw rows => .norm (process_data ops rows)
  | .norm rows => .norm rows

/--
The imperative shape of `process_data` (`src/src/data/parse.py` lines
110-140): DataFrame objects live in a store (handles are indices); the
function first evaluates `df = df.copy()`, allocating a fresh object, and
every subsequent column assignment mutates only that fresh object.
Returns the updated store and the handle of the result.
-/
def process_data_prog (ops : CalendarOps) (s : List DF) (h : Nat) : List DF × Nat :=
  match s[h]? with
  | some df =>
    let s1 := s ++ [df]
    let h1 := s.length
    (s1.set h1 (runProcess ops df), h1)
  | none => (s, h)

/-! ### Helper lemmas for the duration round trip -/

theorem digitChar_isDigit (d : Nat) (h : d < 10) : (digitChar d).isDigit = true := by
  interval_cases d <;> decide

theorem digitChar_toNat (d : Nat) (h : d < 10) : (digitChar d).toNat = 48 + d := by
  interval_cases d <;> decide

theorem natDigits_ne_nil (n : Nat) : natDigits n ≠ [] := by
  rw [natDigits]
  split <;> simp

theorem natDigits_digits (n : Nat) : ∀ c ∈ natDigits n, c.isDigit = true := by
  induction n using Nat.strong_induction_on with
  | _ n ih =>
    by_cases h : n < 10
    · rw [natDigits, if_pos h]
      intro c hc
      simp only [List.mem_singleton] at hc
      subst hc
      exact digitChar_isDigit n h
    · rw [natDigits, if_neg h]
      intro c hc
      rcases List.mem_append.mp hc with h1 | h1
      · exact ih (n / 10) (Nat.div_lt_self (by omega) (by omega)) c h1
      · simp only [List.mem_singleton] at h1
        subst h1
        exact digitChar_isDigit _ (Nat.mod_lt n (by omega))

theorem natOfDigits_aux (n : Nat) :
    ∀ a : Nat, (natDigits n).foldl (fun a c => a * 10 + (c.toNat - 48)) a
      = a * 10 ^ (natDigits n).length + n := by
  induction n using Nat.strong_induction_on with
  | _ n ih =>
    intro a
    by_cases h : n < 10
    · rw [natDigits, if_pos h]
      simp [digitChar_toNat n h]
    · rw [natDigits, if_neg h]
      rw [List.foldl_append, ih (n / 10) (Nat.div_lt_self (by omega) (by omega)) a]
      have hm : (digitChar (n % 10)).toNat = 48 + n % 10 :=
        digitChar_toNat _ (Nat.mod_lt n (by omega))
      simp only [List.foldl_cons, List.foldl_nil, hm, List.length_append,
        List.length_singleton, pow_succ]
      have hdm : n / 10 * 10 + n % 10 = n := by omega
      calc (a * 10 ^ (natDigits (n / 10)).length + n / 10) * 10 + (48 + n % 10 - 48)
          = a * (10 ^ (natDigits (n / 10)).length * 10) + (n / 10 * 10 + n % 10) := by
            ring_nf
            omega
        _ = a * (10 ^ (natDigits (n / 10)).length * 10) + n := by rw [hdm]

theorem natOfDigits_natDigits (n : Nat) : natOfDigits (natDigits n) = n := by
  have h := natOfDigits_aux n 0
  simpa [natOfDigits] using h

theorem takeWhile_digits_append (ds : List Char) (y : Char) (rest : List Char)
    (h2 : ∀ c ∈ ds, c.isDigit = true) (hy : y.isDigit = false) :
    (ds ++ y :: rest).takeWhile Char.isDigit = ds ∧
      (ds ++ y :: rest).dropWhile Char.isDigit = y :: rest := by
  induction ds with
  | nil => simp [List.takeWhile_cons, List.dropWhile_cons, hy]
  | cons d t ih =>
    have hd : d.isDigit = true := h2 d (List.mem_cons_self d t)
    have ht : ∀ c ∈ t, c.isDigit = true := fun c hc => h2 c (List.mem_cons_of_mem d hc)
    obtain ⟨h1, h2'⟩ := ih ht
    simp [List.takeWhile_cons, List.dropWhile_cons, hd, h1, h2']

theorem searchUnit_cons (u x : Char) (xs : List Char) :
    searchUnit u (x :: xs) =
      if x.isDigit then
        if ((x :: xs).dropWhile Char.isDigit).head? = some u then
          some (natOfDigits ((x :: xs).takeWhile Char.isDigit))
        else searchUnit u xs
      else searchUnit u xs := by
  rfl

theorem searchUnit_skip (u y : Char) (hy : y.isDigit = false) (hyu : y ≠ u)
    (ds : List Char) (h2 : ∀ c ∈ ds, c.isDigit = true) (rest : List Char) :
    searchUnit u (ds ++ y :: rest) = searchUnit u rest := by
  induction ds with
  | nil =>
    rw [List.nil_append, searchUnit_cons]
    simp [hy]
  | cons d t ih =>
    have hd : d.isDigit = true := h2 d (List.mem_cons_self d t)
    have ht : ∀ c ∈ t, c.isDigit = true := fun c hc => h2 c (List.mem_cons_of_mem d hc)
    have hdw := (takeWhile_digits_append (d :: t) y rest h2 hy).2
    simp only [List.cons_append] at hdw
    rw [List.cons_append, searchUnit_cons, hdw]
    simp [hd, hyu, ih ht]

theorem searchUnit_skip_one (u y : Char) (hy : y.isDigit = false) (hyu : y ≠ u)
    (rest : List Char) : searchUnit u (y :: rest) = searchUnit u rest := by
  have h := searchUnit_skip u y hy hyu [] (by simp) rest
  simpa using h

theorem searchUnit_hit (u : Char) (hu : u.isDigit = false) (ds : List Char)
    (h1 : ds ≠ []) (h2 : ∀ c ∈ ds, c.isDigit = true) (rest : List Char) :
    searchUnit u (ds ++ u :: rest) = some (natOfDigits ds) := by
  obtain ⟨d, t, rfl⟩ := List.exists_cons_of_ne_nil h1
  have hd : d.isDigit = true := h2 d (List.mem_cons_self d t)
  have htw := takeWhile_digits_append (d :: t) u rest h2 hu
  simp only [List.cons_append] at htw
  rw [List.cons_append, searchUnit_cons, htw.2, htw.1]
  simp [hd]

theorem append_ne_dash (ds t : List Char) (h1 : ds ≠ []) (h2 : t ≠ []) :
    ds ++ t ≠ ['-'] := by
  intro he
  have hl := congrArg List.length he
  have p1 := List.length_pos.mpr h1
  have p2 := List.length_pos.mpr h2
  simp [List.length_append] at hl
  omega

/-! ### Claim theorems -/

/--
C2: for every non-negative integer number of seconds `s`,
`parse_duration (format_duration s) = s`; in particular `format_duration 0`
is the placeholder dash and `parse_duration "-" = 0`, and for `s > 0` the
rendered hours/minutes/seconds string parses back to exactly `s`.
-/
theorem parse_format_roundtrip :
    (∀ s : Nat, parse_duration (format_duration s) = s) ∧
      format_duration 0 = ['-'] ∧ parse_duration ['-'] = 0 := by
  refine ⟨?_, rfl, rfl⟩
  intro s
  by_cases h0 : s = 0
  · subst h0; rfl
  · rw [format_duration, if_neg h0]
    have dH := natDigits_digits (s / 3600)
    have dM := natDigits_digits (s % 3600 / 60)
    have dS := natDigits_digits (s % 60)
    have nH := natDigits_ne_nil (s / 3600)
    have nM := natDigits_ne_nil (s % 3600 / 60)
    have nS := natDigits_ne_nil (s % 60)
    by_cases hh : 0 < s / 3600
    · rw [if_pos hh]
      have e1 : searchUnit 'h' (natDigits (s / 3600) ++ 'h' :: ' '
          :: (natDigits (s % 3600 / 60) ++ 'm' :: ' ' :: (natDigits (s % 60) ++ ['s'])))
          = some (s / 3600) := by
        rw [searchUnit_hit 'h' (by decide) _ nH dH, natOfDigits_natDigits]
      have e2 : searchUnit 'm' (natDigits (s / 3600) ++ 'h' :: ' '
          :: (natDigits (s % 3600 / 60) ++ 'm' :: ' ' :: (natDigits (s % 60) ++ ['s'])))
          = some (s % 3600 / 60) := by
        rw [searchUnit_skip 'm' 'h' (by decide) (by decide) _ dH,
          searchUnit_skip_one 'm' ' ' (by decide) (by decide),
          searchUnit_hit 'm' (by decide) _ nM dM, natOfDigits_natDigits]
      have e3 : searchUnit 's' (natDigits (s / 3600) ++ 'h' :: ' '
          :: (natDigits (s % 3600 / 60) ++ 'm' :: ' ' :: (natDigits (s % 60) ++ ['s'])))
          = some (s % 60) := by
        rw [searchUnit_skip 's' 'h' (by decide) (by decide) _ dH,
          searchUnit_skip_one 's' ' ' (by decide) (by decide),
          searchUnit_skip 's' 'm' (by decide) (by decide) _ dM,
          searchUnit_skip_one 's' ' ' (by decide) (by decide),
          searchUnit_hit 's' (by decide) _ nS dS, natOfDigits_natDigits]
      rw [parse_duration, if_neg (append_ne_dash _ _ nH (by simp)), e1, e2, e3]
      simp only [Option.getD_some]
      omega
    · rw [if_neg hh]
      by_cases hm : 0 < s % 3600 / 60
      · rw [if_pos hm]
        have e1 : searchUnit 'h'
            (natDigits (s % 3600 / 60) ++ 'm' :: ' ' :: (natDigits (s % 60) ++ ['s']))
            = none := by
          rw [searchUnit_skip 'h' 'm' (by decide) (by decide) _ dM,
            searchUnit_skip_one 'h' ' ' (by decide) (by decide),
            searchUnit_skip 'h' 's' (by decide) (by decide) _ dS]
          rfl
        have e2 : searchUnit 'm'
            (natDigits (s % 3600 / 60) ++ 'm' :: ' ' :: (natDigits (s % 60) ++ ['s']))
            = some (s % 3600 / 60) := by
          rw [searchUnit_hit 'm' (by decide) _ nM dM, natOfDigits_natDigits]
        have e3 : searchUnit 's'
            (natDigits (s % 3600 / 60) ++ 'm' :: ' ' :: (natDigits (s % 60) ++ ['s']))
            = some (s % 60) := by
          rw [searchUnit_skip 's' 'm' (by decide) (by decide) _ dM,
            searchUnit_skip_one 's' ' ' (by decide) (by decide),
            searchUnit_hit 's' (by decide) _ nS dS, natOfDigits_natDigits]
        rw [parse_duration, if_neg (append_ne_dash _ _ nM (by simp)), e1, e2, e3]
        simp only [Option.getD_some, Option.getD_none]
        omega
      · rw [if_neg hm]
        have e1 : searchUnit 'h' (natDigits (s % 60) ++ ['s']) = none := by
          rw [searchUnit_skip 'h' 's' (by decide) (by decide) _ dS]
          rfl
        have e2 : searchUnit 'm' (natDigits (s % 60) ++ ['s']) = none := by
          rw [searchUnit_skip 'm' 's' (by decide) (by decide) _ dS]
          rfl
        have e3 : searchUnit 's' (natDigits (s % 60) ++ ['s']) = some (s % 60) := by
          rw [searchUnit_hit 's' (by decide) _ nS dS, natOfDigits_natDigits]
        rw [parse_duration, if_neg (append_ne_dash _ _ nS (by simp)), e1, e2, e3]
        simp only [Option.getD_some, Option.getD_none]
        omega

/--
C10: `parse_duration` matches each unit count as the first maximal digit
run immediately followed by the unit letter, so a decimal duration is not
parsed as a fraction: on `"1.5h"` the digits after the dot are taken as
the whole hour count and the result is `18000`, not `5400`; and the
function is total, returning a natural number on every input.
-/
theorem parse_duration_decimal_behavior :
    parse_duration (("1.5h").toList) = 18000 ∧
      parse_duration (("1.5h").toList) ≠ 5400 ∧
      ∀ s : List Char, 0 ≤ parse_duration s := by
  refine ⟨by decide, by decide, fun s => Nat.zero_le _⟩

/--
C3: `extract_payout` returns the decimal number following a dollar sign
only when it has an explicit fractional part, and returns 0 for the
placeholder dash and every non-matching string:
`extract_payout "$56.25" = 56.25`, `extract_payout "-" = 0`,
`extract_payout "garbage" = 0`, and `extract_payout "$5" = 0` because an
integer-only amount does not match the pattern.
-/
theorem extract_payout_cases :
    extract_payout (("$56.25").toList) = 56.25 ∧
      extract_payout (("-").toList) = 0 ∧
      extract_payout (("garbage").toList) = 0 ∧
      extract_payout (("$5").toList) = 0 := by
  refine ⟨?_, by decide, by decide, by decide⟩
  have h : findMoney ['$', '5', '6', '.', '2', '5'] = some (['5', '6'], ['2', '5']) := by
    decide
  have h1 : natOfDigits ['5', '6'] = 56 := by decide
  have h2 : natOfDigits ['2', '5'] = 25 := by decide
  simp [extract_payout, h, moneyVal, h1, h2]
  norm_num

/--
C4: `calculate_trend current previous` is `(current - previous) / previous
* 100` whenever `previous ≠ 0`; when `previous = 0` it is 100 if
`current > 0` and 0 otherwise; in particular `calculate_trend 50 0 = 100`,
`calculate_trend 0 0 = 0` and `calculate_trend 0 50 = -100`.
-/
theorem calculate_trend_spec :
    (∀ c p : ℚ, p ≠ 0 → calculate_trend c p = (c - p) / p * 100) ∧
      (∀ c : ℚ, 0 < c → calculate_trend c 0 = 100) ∧
      (∀ c : ℚ, ¬ 0 < c → calculate_trend c 0 = 0) ∧
      calculate_trend 50 0 = 100 ∧ calculate_trend 0 0 = 0 ∧
      calculate_trend 0 50 = -100 := by
  refine ⟨fun c p hp => by rw [calculate_trend, if_neg hp],
    fun c hc => by rw [calculate_trend, if_pos rfl, if_pos hc],
    fun c hc => by rw [calculate_trend, if_pos rfl, if_neg hc],
    by norm_num [calculate_trend], by norm_num [calculate_trend], ?_⟩
  rw [calculate_trend, if_neg (by norm_num)]
  norm_num

/-- C4 witness: the general formula applied at `current = 7`,
`previous = 2`. -/
theorem calculate_trend_spec_witness : calculate_trend 7 2 = 250 := by
  rw [calculate_trend_spec.1 7 2 (by norm_num)]
  norm_num

/--
C1: for every normalized record table and inclusive window `[s, e]`, the
date-gap-filled daily aggregation has exactly `(e - s) + 1` rows, no
matter how many input rows fall inside the window.
-/
theorem fill_daily_row_count (rows : List (Option ℤ × ℚ × ℚ)) (s e : ℤ)
    (h : s ≤ e) : (fill_daily rows s e).length = (e - s).toNat + 1 := by
  simp only [fill_daily, dateRange, List.length_map, List.length_range]
  omega

/-- C1 witness: an empty table over a three-day window still yields three
rows. -/
theorem fill_daily_row_count_witness :
    (fill_daily [] 0 2).length = 3 := by
  have h := fill_daily_row_count [] 0 2 (by decide)
  simpa using h

/--
C5 counterexample: the effective-rate computation has no zero-duration
special case — a group holding a single row with `duration_seconds = 0`
and a positive payout is divided anyway and yields an infinite value, not
null and not an omitted row.
-/
theorem effective_rate_zero_duration_inf :
    effective_rate [(0, 10)] = PFloat.inf := by
  simp [effective_rate, floatDiv]

/--
C5 (amended): the effective-rate recipe divides unconditionally; a group
whose summed `duration_seconds` is positive gets a finite rate, while a
group whose summed duration is 0 yields an infinite value when its summed
payout is positive (and NaN when the payout is also 0), rather than being
omitted or reported as null.
-/
theorem effective_rate_no_guard (rows : List (Nat × ℚ)) :
    (0 < (rows.map Prod.fst).sum →
        ∃ q : ℚ, effective_rate rows = PFloat.finite q) ∧
      ((rows.map Prod.fst).sum = 0 → 0 < (rows.map Prod.snd).sum →
        effective_rate rows = PFloat.inf) := by
  constructor
  · intro hpos
    refine ⟨(rows.map Prod.snd).sum / (((rows.map Prod.fst).sum : ℚ) / 3600), ?_⟩
    rw [effective_rate, floatDiv, if_neg]
    intro hzero
    rw [div_eq_zero_iff] at hzero
    rcases hzero with hzero | hzero
    · have hne : ((rows.map Prod.fst).sum : ℚ) ≠ 0 := by
        exact_mod_cast Nat.pos_iff_ne_zero.mp hpos
      exact hne hzero
    · norm_num at hzero
  · intro hdur hpay
    rw [effective_rate, floatDiv, if_pos, if_pos hpay]
    rw [hdur]
    norm_num

/--
C5 witness: the amended theorem applied to a one-row group with one hour
of work and 10 dollars of payout, and to the zero-duration group.
-/
theorem effective_rate_no_guard_witness :
    (∃ q : ℚ, effective_rate [(3600, 10)] = PFloat.finite q) ∧
      effective_rate [(0, 10)] = PFloat.inf := by
  refine ⟨(effective_rate_no_guard [(3600, 10)]).1 (by decide),
    (effective_rate_no_guard [(0, 10)]).2 (by decide)
      (by norm_num [List.sum_cons, List.sum_nil])⟩

/-- Folding `min` over a list only lowers the accumulator and bounds every
element from below. -/
theorem foldl_min_le (l : List ℤ) :
    ∀ a : ℤ, l.foldl min a ≤ a ∧ ∀ v ∈ l, l.foldl min a ≤ v := by
  induction l with
  | nil => exact fun a => ⟨le_refl a, by simp⟩
  | cons x t ih =>
    intro a
    obtain ⟨h1, h2⟩ := ih (min a x)
    refine ⟨le_trans h1 (min_le_left a x), ?_⟩
    intro v hv
    rcases List.mem_cons.mp hv with rfl | hv
    · exact le_trans h1 (min_le_right a v)
    · exact h2 v hv

/-- Folding `min` over a list returns the accumulator or an element. -/
theorem foldl_min_mem (l : List ℤ) : ∀ a : ℤ, l.foldl min a ∈ a :: l := by
  induction l with
  | nil => simp
  | cons x t ih =>
    intro a
    rw [List.foldl_cons]
    rcases List.mem_cons.mp (ih (min a x)) with h1 | h1
    · rw [h1]
      rcases min_choice a x with hc | hc <;> rw [hc] <;> simp
    · exact List.mem_cons_of_mem a (List.mem_cons_of_mem x h1)

/-- Folding `max` over a list only raises the accumulator and bounds every
element from above. -/
theorem foldl_max_ge (l : List ℤ) :
    ∀ a : ℤ, a ≤ l.foldl max a ∧ ∀ v ∈ l, v ≤ l.foldl max a := by
  induction l with
  | nil => exact fun a => ⟨le_refl a, by simp⟩
  | cons x t ih =>
    intro a
    obtain ⟨h1, h2⟩ := ih (max a x)
    refine ⟨le_trans (le_max_left a x) h1, ?_⟩
    intro v hv
    rcases List.mem_cons.mp hv with rfl | hv
    · exact le_trans (le_max_right a v) h1
    · exact h2 v hv

/-- Folding `max` over a list returns the accumulator or an element. -/
theorem foldl_max_mem (l : List ℤ) : ∀ a : ℤ, l.foldl max a ∈ a :: l := by
  induction l with
  | nil => simp
  | cons x t ih =>
    intro a
    rw [List.foldl_cons]
    rcases List.mem_cons.mp (ih (max a x)) with h1 | h1
    · rw [h1]
      rcases max_choice a x with hc | hc <;> rw [hc] <;> simp
    · exact List.mem_cons_of_mem a (List.mem_cons_of_mem x h1)

/--
C6 counterexample: on an empty table, and likewise on a table whose only
date is null, `get_date_range` does not fail — it returns the `(NaT, NaT)`
pair (pandas `Series.min`/`Series.max` of an empty or all-null column),
contradicting the claim that it raises an error rather than returning a
value.
-/
theorem get_date_range_returns_on_empty :
    get_date_range [] = (none, none) ∧ get_date_range [none] = (none, none) := by
  exact ⟨rfl, rfl⟩

/--
C6 (amended): `get_date_range` returns the pair of minimum and maximum
non-null work-date values whenever at least one non-null date exists (both
components are attained, lower- and upper-bound every non-null date, and
are themselves dates of the table); when the table is empty or every date
is null it returns `(NaT, NaT)` rather than raising.
-/
theorem get_date_range_minmax_spec (col : List (Option ℤ)) :
    (col.filterMap id = [] → get_date_range col = (none, none)) ∧
      ∀ v ∈ col.filterMap id, ∃ a b : ℤ,
        get_date_range col = (some a, some b) ∧
          a ∈ col.filterMap id ∧ b ∈ col.filterMap id ∧ a ≤ v ∧ v ≤ b := by
  constructor
  · intro h
    simp [get_date_range, seriesMin, seriesMax, h]
  · intro v hv
    obtain ⟨w, t, hwt⟩ : ∃ w t, col.filterMap id = w :: t := by
      cases hcol : col.filterMap id with
      | nil => rw [hcol] at hv; simp at hv
      | cons w t => exact ⟨w, t, rfl⟩
    refine ⟨t.foldl min w, t.foldl max w, ?_, ?_, ?_, ?_, ?_⟩
    · simp [get_date_range, seriesMin, seriesMax, hwt]
    · rw [hwt]; exact foldl_min_mem t w
    · rw [hwt]; exact foldl_max_mem t w
    · rw [hwt] at hv
      rcases List.mem_cons.mp hv with rfl | hv
      · exact (foldl_min_le t v).1
      · exact (foldl_min_le t w).2 v hv
    · rw [hwt] at hv
      rcases List.mem_cons.mp hv with rfl | hv
      · exact (foldl_max_ge t v).1
      · exact (foldl_max_ge t w).2 v hv

/--
C6 witness: the amended characterization applied to a concrete column with
a null in the middle, at the non-null date 3.
-/
theorem get_date_range_minmax_spec_witness :
    ∃ a b : ℤ, get_date_range [some 9, none, some 3] = (some a, some b) ∧
      a ≤ 3 ∧ 3 ≤ b := by
  obtain ⟨a, b, h1, h2, h3, h4, h5⟩ :=
    (get_date_range_minmax_spec [some 9, none, some 3]).2 3 (by decide)
  exact ⟨a, b, h1, h4, h5⟩

/--
C7: `process_data` returns exactly one normalized row per input row — no
row is dropped or added — and a row whose date string fails both the
primary and the fallback parser is kept, with a null work date and nulls
in the calendar-derived week/month/day-of-week columns.
-/
theorem process_data_preserves_rows (ops : CalendarOps) (rows : List RawRow) :
    (process_data ops rows).length = rows.length ∧
      ∀ (i : Nat) (r : RawRow), rows[i]? = some r →
        ∃ out : NormRow, (process_data ops rows)[i]? = some out ∧
          out.itemID = r.itemID ∧ out.projectName = r.projectName ∧
          out.workDate = r.workDate ∧ out.duration = r.duration ∧
          out.payType = r.payType ∧ out.status = r.status ∧
          (ops.primaryParse r.workDate = none → ops.genericParse r.workDate = none →
            out.workDate_dt = none ∧ out.week = none ∧ out.month = none ∧
              out.day_of_week = none ∧ out.date = none) := by
  refine ⟨by simp [process_data], ?_⟩
  intro i r hr
  refine ⟨mkNormRow ops (effectiveParse ops rows r.workDate) r, ?_,
    rfl, rfl, rfl, rfl, rfl, rfl, ?_⟩
  · rw [process_data, List.getElem?_map, hr, Option.map_some']
  · intro hp hg
    have hd : effectiveParse ops rows r.workDate = none := by
      rw [effectiveParse]
      split
      · exact hg
      · exact hp
    simp [mkNormRow, hd]

/--
C7 witness: a one-row table whose date fails both parsers keeps its row,
with null date and calendar columns.
-/
theorem process_data_preserves_rows_witness :
    (process_data sampleOps [sampleRaw]).length = 1 ∧
      ∃ out : NormRow, (process_data sampleOps [sampleRaw])[0]? = some out ∧
        out.itemID = sampleRaw.itemID ∧ out.workDate_dt = none ∧
        out.week = none ∧ out.month = none ∧ out.day_of_week = none := by
  have h := process_data_preserves_rows sampleOps [sampleRaw]
  refine ⟨h.1.trans rfl, ?_⟩
  obtain ⟨out, h1, h2, _, _, _, _, _, hnull⟩ := h.2 0 sampleRaw rfl
  obtain ⟨hn1, hn2, hn3, hn4, _⟩ := hnull rfl rfl
  exact ⟨out, h1, h2, hn1, hn2, hn3, hn4⟩

/--
C9: `process_data` does not mutate its caller's DataFrame: running it on
any store leaves the table at the caller's handle unchanged, returns a
fresh handle distinct from the caller's, and the fresh handle holds the
normalized copy.
-/
theorem process_data_prog_frame (ops : CalendarOps) (s : List DF) (h : Nat)
    (df : DF) (hdf : s[h]? = some df) :
    ((process_data_prog ops s h).1)[h]? = some df ∧
      (process_data_prog ops s h).2 ≠ h ∧
      ((process_data_prog ops s h).1)[(process_data_prog ops s h).2]? =
        some (runProcess ops df) := by
  have hlen : h < s.length := by
    by_contra hc
    rw [List.getElem?_eq_none (by omega)] at hdf
    exact absurd hdf (by simp)
  have hne : s.length ≠ h := by omega
  simp only [process_data_prog, hdf]
  refine ⟨?_, by omega, ?_⟩
  · rw [List.getElem?_set_ne hne, List.getElem?_append_left hlen]
    exact hdf
  · rw [List.getElem?_set_self (by simp)]

/--
C9 witness: the frame property on a concrete one-table store.
-/
theorem process_data_prog_frame_witness :
    ((process_data_prog sampleOps [DF.raw [sampleRaw]] 0).1)[0]? =
        some (DF.raw [sampleRaw]) ∧
      (process_data_prog sampleOps [DF.raw [sampleRaw]] 0).2 ≠ 0 := by
  have h := process_data_prog_frame sampleOps [DF.raw [sampleRaw]] 0
    (DF.raw [sampleRaw]) rfl
  exact ⟨h.1, h.2.1⟩

/-- `weekIndex` is injective: distinct day names get distinct positions in
`days_order`. -/
theorem weekIndex_inj : ∀ x y : Weekday, weekIndex x = weekIndex y → x = y := by
  intro x y
  cases x <;> cases y <;> simp [weekIndex]

/-- Sorting by the `days_order` categorical makes any list with distinct
day-name keys strictly increasing in week order. -/
theorem pairwise_lt_of_sorted_nodup (l : List (Weekday × ℚ))
    (hnd : (l.map Prod.fst).Nodup) :
    List.Pairwise (fun a b : Weekday × ℚ => weekIndex a.1 < weekIndex b.1)
      (l.insertionSort weekLE) := by
  have hs : List.Sorted weekLE (l.insertionSort weekLE) :=
    List.sorted_insertionSort weekLE l
  have hperm : List.Perm (l.insertionSort weekLE) l := List.perm_insertionSort weekLE l
  have hnd2 : ((l.insertionSort weekLE).map Prod.fst).Nodup :=
    (hperm.map Prod.fst).nodup_iff.mpr hnd
  have hne : List.Pairwise (fun a b : Weekday × ℚ => a.1 ≠ b.1)
      (l.insertionSort weekLE) := List.pairwise_map.mp hnd2
  exact (hs.and hne).imp fun hab =>
    lt_of_le_of_ne hab.1 fun he => hab.2 (weekIndex_inj _ _ he)

/--
C8: the day-of-week aggregation emits its rows in fixed week order
Monday → Sunday (strictly increasing `weekIndex`), for every input table
regardless of the order in which its rows arrive.
-/
theorem day_of_week_hours_week_ordered (rows : List (ℤ × ℚ)) :
    List.Pairwise (fun a b : Weekday × ℚ => weekIndex a.1 < weekIndex b.1)
      (day_of_week_hours rows) := by
  rw [day_of_week_hours]
  apply pairwise_lt_of_sorted_nodup
  have hmap : ((day_keys rows).map (fun k =>
      (k, (((day_named rows).filter (fun r => decide (r.1 = k))).map Prod.snd).sum))).map
        Prod.fst = day_keys rows := by
    rw [List.map_map]
    exact List.map_id (day_keys rows)
  rw [hmap, day_keys]
  exact (List.perm_insertionSort alphaLE _).nodup_iff.mpr
    (List.nodup_dedup _)
